import Mathlib

/-!
Verification of the trie-based autocomplete engine (`Trie` in `src/trie.py`,
duplicated verbatim in `src/bill.py`).

Embedding choices:
* A Python string is modelled as a `List Char` (`Word`); `str.lower()` is
  modelled per-character by `Char.toLower`, which agrees with Python on the
  ASCII corpus the application uses.
* A Python `dict` keyed by characters is modelled as an insertion-ordered
  association list `List (Char × TrieNode)`: lookup returns the first binding,
  assignment to an existing key updates that binding in place, assignment to a
  fresh key appends the binding at the end — exactly the observable semantics
  of a CPython 3.7+ dict, including its iteration order.
* `TrieNode.word` is an `Option Word` because the Python attribute starts as
  `None`; `_find_words_from_node` only reads it on nodes with
  `is_end_of_word = True`, where `insert` has always stored a word.
* Python's substring test `a in b` is modelled by `containsSub`, and
  `list(dict.fromkeys(...))` (first-occurrence-stable deduplication) by
  `dedupKeepFirst`.
-/

namespace Bill

abbrev Word := List Char

/-- Per-character lowercasing, the model of Python's `str.lower()`. -/
def lowerWord (w : Word) : Word := w.map Char.toLower

/-- A node of the trie: `children` (insertion-ordered dict), `is_end_of_word`,
and the stored original `word`, mirroring `TrieNode.__init__`. -/
inductive TrieNode : Type where
  | mk : List (Char × TrieNode) → Bool → Option Word → TrieNode

def TrieNode.children : TrieNode → List (Char × TrieNode)
  | .mk cs _ _ => cs

def TrieNode.is_end_of_word : TrieNode → Bool
  | .mk _ e _ => e

def TrieNode.word : TrieNode → Option Word
  | .mk _ _ w => w

/-- A fresh `TrieNode()`: empty dict, not a terminal, no stored word. -/
def emptyNode : TrieNode := .mk [] false none

/-- Dict lookup `node.children[char]` under `char in node.children`:
the first binding with the given key. -/
def lookupChild : List (Char × TrieNode) → Char → Option TrieNode
  | [], _ => none
  | (c0, n0) :: rest, c => if c0 = c then some n0 else lookupChild rest c

/-- Dict assignment to an existing key: replace the binding in place,
keeping its position. -/
def updateChild : List (Char × TrieNode) → Char → TrieNode → List (Char × TrieNode)
  | [], _, _ => []
  | (c0, n0) :: rest, c, n =>
    if c0 = c then (c0, n) :: rest else (c0, n0) :: updateChild rest c n

/-- The loop body of `Trie.insert`: walk/create the path of the already
lowercased characters, then mark the final node terminal and store the
original word there. A fresh key is appended at the end of the child dict
(Python dict insertion order); an existing key's child is updated in place. -/
def insertAux : TrieNode → List Char → Word → TrieNode
  | .mk cs _ _, [], orig => .mk cs true (some orig)
  | .mk cs e w0, c :: rest, orig =>
    match lookupChild cs c with
    | some ch => .mk (updateChild cs c (insertAux ch rest orig)) e w0
    | none => .mk (cs ++ [(c, insertAux emptyNode rest orig)]) e w0

/-- The walk shared by `Trie.search`: follow one child per character,
failing as soon as a character has no child. -/
def walkNode : TrieNode → List Char → Option TrieNode
  | n, [] => some n
  | n, c :: rest =>
    match lookupChild n.children c with
    | none => none
    | some ch => walkNode ch rest

mutual

/-- `Trie._find_words_from_node`: the node's own terminal word (if any)
followed by the words of each child subtree, in child-dict order. -/
def findWordsFromNode : TrieNode → List Word
  | .mk cs e w0 =>
    (if e then (match w0 with | some v => [v] | none => []) else []) ++
      findWordsFromChildren cs

/-- The `for char, child_node in node.children.items()` loop of
`_find_words_from_node`. -/
def findWordsFromChildren : List (Char × TrieNode) → List Word
  | [] => []
  | (_, n) :: rest => findWordsFromNode n ++ findWordsFromChildren rest

end

/-- Does `n` occur as a prefix of `h`? Helper for `containsSub`. -/
def subAt : Word → Word → Bool
  | [], _ => true
  | _ :: _, [] => false
  | a :: as, b :: bs => a == b && subAt as bs

/-- Python's substring test `n in h` on strings: `n` occurs contiguously
anywhere in `h`. -/
def containsSub : Word → Word → Bool
  | n, [] => n.isEmpty
  | n, b :: bs => subAt n (b :: bs) || containsSub n bs

/-- Python's `list(dict.fromkeys(l))` with an extra accumulator of already
seen keys: keep the first occurrence of each value, drop later ones. -/
def dedupAcc (seen : List Word) : List Word → List Word
  | [] => []
  | w :: rest =>
    if w ∈ seen then dedupAcc seen rest else w :: dedupAcc (w :: seen) rest

/-- `list(dict.fromkeys(l))`: stable first-occurrence deduplication. -/
def dedupKeepFirst (l : List Word) : List Word := dedupAcc [] l

/-- The set of keys seen by `dedupAcc seen a` after consuming all of `a`. -/
def seenAfter (seen : List Word) : List Word → List Word
  | [] => seen
  | w :: rest =>
    if w ∈ seen then seenAfter seen rest else seenAfter (w :: seen) rest

/-- The `Trie` object: a root node and the flat `words` list used for
substring search. -/
structure Trie where
  root : TrieNode
  words : List Word

/-- `Trie.__init__`: fresh root, empty word list. -/
def Trie.empty : Trie := ⟨emptyNode, []⟩

/-- `Trie.insert`: walk/create the lowercased path, store the original word
at the terminal, and append the original word to the flat list. -/
def Trie.insert (t : Trie) (w : Word) : Trie :=
  ⟨insertAux t.root (lowerWord w) w, t.words ++ [w]⟩

/-- `Trie.search`: walk the lowercased query; on a miss return `[]`,
otherwise collect the subtree's words. -/
def Trie.search (t : Trie) (p : Word) : List Word :=
  match walkNode t.root (lowerWord p) with
  | none => []
  | some n => findWordsFromNode n

/-- The `all_suggestions` value of `Trie.get_suggestions` before slicing:
prefix matches, then the substring scan over the flat list, deduplicated. -/
def allSuggestions (t : Trie) (p : Word) : List Word :=
  dedupKeepFirst
    (t.search p ++ t.words.filter (fun w => containsSub (lowerWord p) (lowerWord w)))

/-- `Trie.get_suggestions`: prefix matches, then substring matches,
deduplicated and truncated to `limit`. -/
def Trie.get_suggestions (t : Trie) (p : Word) (limit : Nat) : List Word :=
  (allSuggestions t p).take limit

/-- The index reachable by inserting the given words, in order, into a fresh
trie — exactly the states the host application can produce. -/
def fromWords (ws : List Word) : Trie := ws.foldl Trie.insert Trie.empty

/-- Terminal information at a normalized path: the stored original word of
the node reached by walking `l`, if that node exists and is a terminal. -/
def termWordAt (n : TrieNode) (l : List Char) : Option Word :=
  match walkNode n l with
  | none => none
  | some m => if m.is_end_of_word then m.word else none

/-- State-passing form of `Trie.search`: the method reads `self.root` and
assigns no attribute, so the returned state is the received one. -/
def Trie.searchST (t : Trie) (p : Word) : List Word × Trie :=
  (t.search p, t)

/-- State-passing form of `Trie.get_suggestions`: the method reads
`self` and assigns no attribute, so the returned state is the received one. -/
def Trie.getSuggestionsST (t : Trie) (p : Word) (limit : Nat) : List Word × Trie :=
  (t.get_suggestions p limit, t)

/-- Example corpus: twenty distinct two-character names all beginning 'A'. -/
def twentyNames : List Word :=
  [['A', 'a'], ['A', 'b'], ['A', 'c'], ['A', 'd'], ['A', 'e'],
   ['A', 'f'], ['A', 'g'], ['A', 'h'], ['A', 'i'], ['A', 'j'],
   ['A', 'k'], ['A', 'l'], ['A', 'm'], ['A', 'n'], ['A', 'o'],
   ['A', 'p'], ['A', 'q'], ['A', 'r'], ['A', 's'], ['A', 't']]

def wWalmart : Word := "Walmart".data

def qWalLower : Word := "wal".data

def qWalUpper : Word := "WAL".data

def wCostco : Word := "Costco".data

def wCostcoUpper : Word := "COSTCO".data

def qCost : Word := "cost".data

def wHomeDepot : Word := "Home Depot".data

def qDepot : Word := "depot".data

def wApple : Word := "Apple".data

def qZzz : Word := "zzz".data

theorem lookupChild_update_self {cs : List (Char × TrieNode)} {c : Char} {ch : TrieNode}
    (n : TrieNode) (h : lookupChild cs c = some ch) :
    lookupChild (updateChild cs c n) c = some n := by
  induction cs with
  | nil => simp [lookupChild] at h
  | cons hd rest ih =>
    obtain ⟨c0, n0⟩ := hd
    by_cases hc : c0 = c
    · simp [lookupChild, updateChild, hc]
    · simp only [lookupChild, updateChild, if_neg hc] at h ⊢
      exact ih h

theorem lookupChild_update_other {cs : List (Char × TrieNode)} {c c' : Char}
    (n : TrieNode) (h : c' ≠ c) :
    lookupChild (updateChild cs c n) c' = lookupChild cs c' := by
  induction cs with
  | nil => simp [updateChild]
  | cons hd rest ih =>
    obtain ⟨c0, n0⟩ := hd
    by_cases hc : c0 = c
    · subst hc
      simp [lookupChild, updateChild, Ne.symm h]
    · by_cases hc' : c0 = c'
      · subst hc'
        simp [lookupChild, updateChild, h]
      · simp only [lookupChild, updateChild, if_neg hc, if_neg hc']
        exact ih

theorem lookupChild_append_of_none {cs : List (Char × TrieNode)} {c : Char}
    (ds : List (Char × TrieNode)) (h : lookupChild cs c = none) :
    lookupChild (cs ++ ds) c = lookupChild ds c := by
  induction cs with
  | nil => simp
  | cons hd rest ih =>
    obtain ⟨c0, n0⟩ := hd
    by_cases hc : c0 = c
    · simp [lookupChild, hc] at h
    · simp only [lookupChild, List.cons_append, if_neg hc] at h ⊢
      exact ih h

theorem lookupChild_append_of_some {cs : List (Char × TrieNode)} {c : Char} {ch : TrieNode}
    (ds : List (Char × TrieNode)) (h : lookupChild cs c = some ch) :
    lookupChild (cs ++ ds) c = some ch := by
  induction cs with
  | nil => simp [lookupChild] at h
  | cons hd rest ih =>
    obtain ⟨c0, n0⟩ := hd
    by_cases hc : c0 = c
    · simp only [lookupChild, if_pos hc] at h
      simp [lookupChild, hc, h]
    · simp only [lookupChild, List.cons_append, if_neg hc] at h ⊢
      exact ih h

theorem lookupChild_mem {cs : List (Char × TrieNode)} {c : Char} {ch : TrieNode}
    (h : lookupChild cs c = some ch) : (c, ch) ∈ cs := by
  induction cs with
  | nil => simp [lookupChild] at h
  | cons hd rest ih =>
    obtain ⟨c0, n0⟩ := hd
    by_cases hc : c0 = c
    · subst hc
      simp only [lookupChild, if_pos rfl] at h
      injection h with h'
      subst h'
      exact List.mem_cons_self _ _
    · simp only [lookupChild, if_neg hc] at h
      exact List.mem_cons_of_mem _ (ih h)

theorem termWordAt_nil (n : TrieNode) :
    termWordAt n [] = if n.is_end_of_word then n.word else none := rfl

theorem termWordAt_cons_some {n : TrieNode} {c : Char} {ch : TrieNode}
    (l : List Char) (h : lookupChild n.children c = some ch) :
    termWordAt n (c :: l) = termWordAt ch l := by
  simp [termWordAt, walkNode, h]

theorem termWordAt_cons_none {n : TrieNode} {c : Char}
    (l : List Char) (h : lookupChild n.children c = none) :
    termWordAt n (c :: l) = none := by
  simp [termWordAt, walkNode, h]

theorem termWordAt_emptyNode (l : List Char) : termWordAt emptyNode l = none := by
  cases l with
  | nil => rfl
  | cons c rest =>
    exact termWordAt_cons_none rest (by simp [emptyNode, TrieNode.children, lookupChild])

theorem termWordAt_insertAux_self (n : TrieNode) (l : List Char) (w : Word) :
    termWordAt (insertAux n l w) l = some w := by
  induction l generalizing n with
  | nil =>
    obtain ⟨cs, e, w0⟩ := n
    simp [insertAux, termWordAt, walkNode, TrieNode.is_end_of_word, TrieNode.word]
  | cons c rest ih =>
    obtain ⟨cs, e, w0⟩ := n
    cases hl : lookupChild cs c with
    | some ch =>
      have hstep : termWordAt (insertAux (TrieNode.mk cs e w0) (c :: rest) w) (c :: rest) =
          termWordAt (insertAux ch rest w) rest := by
        refine termWordAt_cons_some rest ?_
        simp only [insertAux, hl, TrieNode.children]
        exact lookupChild_update_self _ hl
      rw [hstep]
      exact ih ch
    | none =>
      have hstep : termWordAt (insertAux (TrieNode.mk cs e w0) (c :: rest) w) (c :: rest) =
          termWordAt (insertAux emptyNode rest w) rest := by
        refine termWordAt_cons_some rest ?_
        simp only [insertAux, hl, TrieNode.children]
        rw [lookupChild_append_of_none _ hl]
        simp [lookupChild]
      rw [hstep]
      exact ih emptyNode

theorem termWordAt_insertAux_other (n : TrieNode) (l l' : List Char) (w : Word)
    (hne : l' ≠ l) : termWordAt (insertAux n l w) l' = termWordAt n l' := by
  induction l generalizing n l' with
  | nil =>
    obtain ⟨cs, e, w0⟩ := n
    cases l' with
    | nil => exact absurd rfl hne
    | cons c' r' =>
      cases hl : lookupChild cs c' with
      | some ch =>
        rw [termWordAt_cons_some r' (by simpa [insertAux, TrieNode.children] using hl),
          termWordAt_cons_some r' (by simpa [TrieNode.children] using hl)]
      | none =>
        rw [termWordAt_cons_none r' (by simpa [insertAux, TrieNode.children] using hl),
          termWordAt_cons_none r' (by simpa [TrieNode.children] using hl)]
  | cons c rest ih =>
    obtain ⟨cs, e, w0⟩ := n
    cases hl : lookupChild cs c with
    | some ch =>
      cases l' with
      | nil =>
        simp [insertAux, hl, termWordAt_nil, TrieNode.is_end_of_word, TrieNode.word]
      | cons c' r' =>
        by_cases hcc : c' = c
        · subst hcc
          have hr' : r' ≠ rest := fun h => hne (by rw [h])
          rw [termWordAt_cons_some r'
              (show lookupChild (TrieNode.mk cs e w0).children c' = some ch by
                simpa [TrieNode.children] using hl)]
          have hlook : lookupChild (insertAux (TrieNode.mk cs e w0) (c' :: rest) w).children c' =
              some (insertAux ch rest w) := by
            simp only [insertAux, hl, TrieNode.children]
            exact lookupChild_update_self _ hl
          rw [termWordAt_cons_some r' hlook]
          exact ih ch r' hr'
        · have hlook : lookupChild (insertAux (TrieNode.mk cs e w0) (c :: rest) w).children c' =
              lookupChild cs c' := by
            simp only [insertAux, hl, TrieNode.children]
            exact lookupChild_update_other _ hcc
          cases hl' : lookupChild cs c' with
          | some ch' =>
            rw [termWordAt_cons_some r' (by rw [hlook]; exact hl'),
              termWordAt_cons_some r' (by simpa [TrieNode.children] using hl')]
          | none =>
            rw [termWordAt_cons_none r' (by rw [hlook]; exact hl'),
              termWordAt_cons_none r' (by simpa [TrieNode.children] using hl')]
    | none =>
      cases l' with
      | nil =>
        simp [insertAux, hl, termWordAt_nil, TrieNode.is_end_of_word, TrieNode.word]
      | cons c' r' =>
        by_cases hcc : c' = c
        · subst hcc
          have hr' : r' ≠ rest := fun h => hne (by rw [h])
          have hlook : lookupChild (insertAux (TrieNode.mk cs e w0) (c' :: rest) w).children c' =
              some (insertAux emptyNode rest w) := by
            simp only [insertAux, hl, TrieNode.children]
            rw [lookupChild_append_of_none _ hl]
            simp [lookupChild]
          rw [termWordAt_cons_some r' hlook, ih emptyNode r' hr', termWordAt_emptyNode,
            termWordAt_cons_none r' (by simpa [TrieNode.children] using hl)]
        · have hlook : lookupChild (insertAux (TrieNode.mk cs e w0) (c :: rest) w).children c' =
              lookupChild cs c' := by
            simp only [insertAux, hl, TrieNode.children]
            cases hl' : lookupChild cs c' with
            | some ch' => exact lookupChild_append_of_some _ hl'
            | none =>
              rw [lookupChild_append_of_none _ hl']
              have hcs : ¬ c = c' := fun h => hcc h.symm
              simp [lookupChild, hcs]
          cases hl' : lookupChild cs c' with
          | some ch' =>
            rw [termWordAt_cons_some r' (by rw [hlook]; exact hl'),
              termWordAt_cons_some r' (by simpa [TrieNode.children] using hl')]
          | none =>
            rw [termWordAt_cons_none r' (by rw [hlook]; exact hl'),
              termWordAt_cons_none r' (by simpa [TrieNode.children] using hl')]

theorem fromWords_append_singleton (ws : List Word) (w : Word) :
    fromWords (ws ++ [w]) = (fromWords ws).insert w := by
  simp [fromWords, List.foldl_append]

theorem fromWords_words (ws : List Word) : (fromWords ws).words = ws := by
  induction ws using List.reverseRecOn with
  | nil => rfl
  | append_singleton ws w ih =>
    rw [fromWords_append_singleton]
    simp [Trie.insert, ih]

/-- The trie invariant: the terminal at a normalized path stores the original
text of the most recent insert whose lowercase form equals that path. -/
theorem termWordAt_fromWords (ws : List Word) (l : List Char) :
    termWordAt (fromWords ws).root l =
      (ws.filter (fun u => lowerWord u = l)).getLast? := by
  induction ws using List.reverseRecOn generalizing l with
  | nil => simpa [fromWords, Trie.empty] using termWordAt_emptyNode l
  | append_singleton ws w ih =>
    rw [fromWords_append_singleton]
    by_cases hw : lowerWord w = l
    · subst hw
      rw [show ((fromWords ws).insert w).root = insertAux (fromWords ws).root (lowerWord w) w
          from rfl]
      rw [termWordAt_insertAux_self]
      rw [List.filter_append]
      simp
    · rw [show ((fromWords ws).insert w).root = insertAux (fromWords ws).root (lowerWord w) w
          from rfl]
      rw [termWordAt_insertAux_other _ _ _ _ (fun h => hw h.symm)]
      rw [ih, List.filter_append]
      simp [hw]

theorem findWordsFromChildren_append (a b : List (Char × TrieNode)) :
    findWordsFromChildren (a ++ b) =
      findWordsFromChildren a ++ findWordsFromChildren b := by
  induction a with
  | nil => simp [findWordsFromChildren]
  | cons hd rest ih =>
    obtain ⟨c0, n0⟩ := hd
    simp [findWordsFromChildren, ih]

theorem findWords_emptyNode : findWordsFromNode emptyNode = [] := by
  simp [emptyNode, findWordsFromNode, findWordsFromChildren]

theorem mem_findWords_of_binding {cs : List (Char × TrieNode)} {c : Char}
    {ch : TrieNode} {v : Word} (hmem : (c, ch) ∈ cs)
    (hv : v ∈ findWordsFromNode ch) : v ∈ findWordsFromChildren cs := by
  induction cs with
  | nil => simp at hmem
  | cons hd rest ih =>
    obtain ⟨c0, n0⟩ := hd
    rcases List.mem_cons.mp hmem with heq | htail
    · injection heq with h1 h2
      subst h1; subst h2
      exact List.mem_append.mpr (Or.inl hv)
    · exact List.mem_append.mpr (Or.inr (ih htail))

theorem mem_findWords_of_mem_children {n : TrieNode} {v : Word}
    (h : v ∈ findWordsFromChildren n.children) : v ∈ findWordsFromNode n := by
  obtain ⟨cs, e, w0⟩ := n
  simp only [TrieNode.children] at h
  simp only [findWordsFromNode]
  exact List.mem_append.mpr (Or.inr h)

theorem mem_update_of_mem_new {cs : List (Char × TrieNode)} {c : Char}
    {ch nx : TrieNode} {v : Word} (h : lookupChild cs c = some ch)
    (hv : v ∈ findWordsFromNode nx) :
    v ∈ findWordsFromChildren (updateChild cs c nx) := by
  induction cs with
  | nil => simp [lookupChild] at h
  | cons hd rest ih =>
    obtain ⟨c0, n0⟩ := hd
    by_cases hc : c0 = c
    · simp only [updateChild, if_pos hc, findWordsFromChildren]
      exact List.mem_append.mpr (Or.inl hv)
    · simp only [lookupChild, if_neg hc] at h
      simp only [updateChild, if_neg hc, findWordsFromChildren]
      exact List.mem_append.mpr (Or.inr (ih h))

theorem mem_findWords_insertAux (n : TrieNode) (l : List Char) (w : Word) :
    w ∈ findWordsFromNode (insertAux n l w) := by
  induction l generalizing n with
  | nil =>
    obtain ⟨cs, e, w0⟩ := n
    simp [insertAux, findWordsFromNode]
  | cons c rest ih =>
    obtain ⟨cs, e, w0⟩ := n
    cases hl : lookupChild cs c with
    | some ch =>
      simp only [insertAux, hl, findWordsFromNode]
      exact List.mem_append.mpr (Or.inr (mem_update_of_mem_new hl (ih ch)))
    | none =>
      simp only [insertAux, hl, findWordsFromNode]
      refine List.mem_append.mpr (Or.inr ?_)
      rw [findWordsFromChildren_append]
      refine List.mem_append.mpr (Or.inr ?_)
      simp only [findWordsFromChildren]
      exact List.mem_append.mpr (Or.inl (ih emptyNode))

theorem mem_update_cases {cs : List (Char × TrieNode)} {c : Char}
    {ch nx : TrieNode} {v : Word} (h : lookupChild cs c = some ch)
    (hv : v ∈ findWordsFromChildren cs) :
    v ∈ findWordsFromChildren (updateChild cs c nx) ∨ v ∈ findWordsFromNode ch := by
  induction cs with
  | nil => simp [lookupChild] at h
  | cons hd rest ih =>
    obtain ⟨c0, n0⟩ := hd
    simp only [findWordsFromChildren] at hv
    by_cases hc : c0 = c
    · simp only [lookupChild, if_pos hc] at h
      injection h with h'
      subst h'
      rcases List.mem_append.mp hv with hhd | htl
      · exact Or.inr hhd
      · refine Or.inl ?_
        simp only [updateChild, if_pos hc, findWordsFromChildren]
        exact List.mem_append.mpr (Or.inr htl)
    · simp only [lookupChild, if_neg hc] at h
      rcases List.mem_append.mp hv with hhd | htl
      · refine Or.inl ?_
        simp only [updateChild, if_neg hc, findWordsFromChildren]
        exact List.mem_append.mpr (Or.inl hhd)
      · rcases ih h htl with hupd | hch
        · refine Or.inl ?_
          simp only [updateChild, if_neg hc, findWordsFromChildren]
          exact List.mem_append.mpr (Or.inr hupd)
        · exact Or.inr hch

theorem mem_update_sub {cs : List (Char × TrieNode)} {c : Char}
    {nx : TrieNode} {v : Word}
    (hv : v ∈ findWordsFromChildren (updateChild cs c nx)) :
    v ∈ findWordsFromChildren cs ∨ v ∈ findWordsFromNode nx := by
  induction cs with
  | nil => simp [updateChild, findWordsFromChildren] at hv
  | cons hd rest ih =>
    obtain ⟨c0, n0⟩ := hd
    by_cases hc : c0 = c
    · simp only [updateChild, if_pos hc, findWordsFromChildren] at hv
      rcases List.mem_append.mp hv with hhd | htl
      · exact Or.inr hhd
      · exact Or.inl (by
          simp only [findWordsFromChildren]
          exact List.mem_append.mpr (Or.inr htl))
    · simp only [updateChild, if_neg hc, findWordsFromChildren] at hv
      rcases List.mem_append.mp hv with hhd | htl
      · exact Or.inl (by
          simp only [findWordsFromChildren]
          exact List.mem_append.mpr (Or.inl hhd))
      · rcases ih htl with hcs | hnx
        · exact Or.inl (by
            simp only [findWordsFromChildren]
            exact List.mem_append.mpr (Or.inr hcs))
        · exact Or.inr hnx

theorem findWords_insertAux_or {n : TrieNode} {v : Word} (l : List Char) (u : Word)
    (hv : v ∈ findWordsFromNode n) :
    v ∈ findWordsFromNode (insertAux n l u) ∨ termWordAt n l = some v := by
  induction l generalizing n with
  | nil =>
    obtain ⟨cs, e, w0⟩ := n
    simp only [findWordsFromNode] at hv
    rcases List.mem_append.mp hv with hterm | hch
    · refine Or.inr ?_
      rw [termWordAt_nil]
      cases e with
      | false => simp at hterm
      | true =>
        cases w0 with
        | none => simp at hterm
        | some x =>
          simp only [if_true] at hterm
          simp only [List.mem_singleton] at hterm
          subst hterm
          rfl
    · refine Or.inl ?_
      simp only [insertAux, findWordsFromNode]
      exact List.mem_append.mpr (Or.inr hch)
  | cons c rest ih =>
    obtain ⟨cs, e, w0⟩ := n
    simp only [findWordsFromNode] at hv
    rcases List.mem_append.mp hv with hterm | hch
    · refine Or.inl ?_
      cases hl : lookupChild cs c with
      | some ch =>
        simp only [insertAux, hl, findWordsFromNode]
        exact List.mem_append.mpr (Or.inl hterm)
      | none =>
        simp only [insertAux, hl, findWordsFromNode]
        exact List.mem_append.mpr (Or.inl hterm)
    · cases hl : lookupChild cs c with
      | some ch =>
        rcases @mem_update_cases cs c ch (insertAux ch rest u) v hl hch with hupd | hin
        · refine Or.inl ?_
          simp only [insertAux, hl, findWordsFromNode]
          exact List.mem_append.mpr (Or.inr hupd)
        · rcases ih hin with hnew | hterm'
          · refine Or.inl ?_
            simp only [insertAux, hl, findWordsFromNode]
            exact List.mem_append.mpr (Or.inr (mem_update_of_mem_new hl hnew))
          · refine Or.inr ?_
            rw [termWordAt_cons_some rest (by simpa [TrieNode.children] using hl)]
            exact hterm'
      | none =>
        refine Or.inl ?_
        simp only [insertAux, hl, findWordsFromNode]
        rw [findWordsFromChildren_append]
        exact List.mem_append.mpr (Or.inr (List.mem_append.mpr (Or.inl hch)))

theorem findWords_insertAux_sub {n : TrieNode} {v : Word} {l : List Char} {u : Word}
    (hv : v ∈ findWordsFromNode (insertAux n l u)) :
    v ∈ findWordsFromNode n ∨ v = u := by
  induction l generalizing n with
  | nil =>
    obtain ⟨cs, e, w0⟩ := n
    simp only [insertAux, findWordsFromNode] at hv
    rcases List.mem_append.mp hv with hterm | hch
    · simp only [if_true, List.mem_singleton] at hterm
      exact Or.inr hterm
    · refine Or.inl ?_
      simp only [findWordsFromNode]
      exact List.mem_append.mpr (Or.inr hch)
  | cons c rest ih =>
    obtain ⟨cs, e, w0⟩ := n
    cases hl : lookupChild cs c with
    | some ch =>
      simp only [insertAux, hl, findWordsFromNode] at hv
      rcases List.mem_append.mp hv with hterm | hupd
      · refine Or.inl ?_
        simp only [findWordsFromNode]
        exact List.mem_append.mpr (Or.inl hterm)
      · rcases mem_update_sub hupd with hcs | hnx
        · refine Or.inl ?_
          simp only [findWordsFromNode]
          exact List.mem_append.mpr (Or.inr hcs)
        · rcases ih hnx with hold | heq
          · refine Or.inl ?_
            simp only [findWordsFromNode]
            exact List.mem_append.mpr
              (Or.inr (mem_findWords_of_binding (lookupChild_mem hl) hold))
          · exact Or.inr heq
    | none =>
      simp only [insertAux, hl, findWordsFromNode] at hv
      rcases List.mem_append.mp hv with hterm | happ
      · refine Or.inl ?_
        simp only [findWordsFromNode]
        exact List.mem_append.mpr (Or.inl hterm)
      · rw [findWordsFromChildren_append] at happ
        rcases List.mem_append.mp happ with hcs | hnewsub
        · refine Or.inl ?_
          simp only [findWordsFromNode]
          exact List.mem_append.mpr (Or.inr hcs)
        · simp only [findWordsFromChildren] at hnewsub
          rcases List.mem_append.mp hnewsub with hn | hnil
          · rcases ih hn with hempty | heq
            · rw [findWords_emptyNode] at hempty
              simp at hempty
            · exact Or.inr heq
          · simp [findWordsFromChildren] at hnil

theorem findWords_walk_sub {n m : TrieNode} {v : Word} (l : List Char)
    (hw : walkNode n l = some m) (hv : v ∈ findWordsFromNode m) :
    v ∈ findWordsFromNode n := by
  induction l generalizing n with
  | nil =>
    simp only [walkNode, Option.some.injEq] at hw
    subst hw
    exact hv
  | cons c rest ih =>
    cases hl : lookupChild n.children c with
    | none => simp [walkNode, hl] at hw
    | some ch =>
      simp only [walkNode, hl] at hw
      exact mem_findWords_of_mem_children
        (mem_findWords_of_binding (lookupChild_mem hl) (ih hw))

theorem mem_search_sub {t : Trie} {p v : Word} (hv : v ∈ t.search p) :
    v ∈ findWordsFromNode t.root := by
  unfold Trie.search at hv
  cases hw : walkNode t.root (lowerWord p) with
  | none => simp [hw] at hv
  | some m =>
    rw [hw] at hv
    exact findWords_walk_sub _ hw hv

theorem findWords_fromWords_sub {ws : List Word} {v : Word}
    (hv : v ∈ findWordsFromNode (fromWords ws).root) : v ∈ ws := by
  induction ws using List.reverseRecOn with
  | nil =>
    rw [show (fromWords []).root = emptyNode from rfl, findWords_emptyNode] at hv
    simp at hv
  | append_singleton ws w ih =>
    rw [fromWords_append_singleton] at hv
    rcases findWords_insertAux_sub hv with hold | heq
    · exact List.mem_append.mpr (Or.inl (ih hold))
    · subst heq
      exact List.mem_append.mpr (Or.inr (List.mem_singleton.mpr rfl))

theorem findWords_fromWords_complete {ws : List Word} {w : Word} (hw : w ∈ ws) :
    ∃ v, lowerWord v = lowerWord w ∧ v ∈ findWordsFromNode (fromWords ws).root := by
  induction ws using List.reverseRecOn with
  | nil => simp at hw
  | append_singleton ws u ih =>
    rw [fromWords_append_singleton]
    rcases List.mem_append.mp hw with hmem | hlast
    · obtain ⟨v, hvl, hvmem⟩ := ih hmem
      rcases findWords_insertAux_or (lowerWord u) u hvmem with hkeep | hterm
      · exact ⟨v, hvl, hkeep⟩
      · refine ⟨u, ?_, mem_findWords_insertAux _ _ _⟩
        rw [termWordAt_fromWords] at hterm
        have hvfil : v ∈ ws.filter (fun x => lowerWord x = lowerWord u) := by
          have hvlast : v ∈ (ws.filter (fun x => lowerWord x = lowerWord u)).getLast? :=
            Option.mem_def.mpr hterm
          obtain ⟨hne, hvget⟩ := List.mem_getLast?_eq_getLast hvlast
          rw [hvget]
          exact List.getLast_mem hne
        have hvu : lowerWord v = lowerWord u :=
          of_decide_eq_true (List.mem_filter.mp hvfil).2
        rw [← hvl, ← hvu]
    · rw [List.mem_singleton] at hlast
      subst hlast
      exact ⟨w, rfl, mem_findWords_insertAux _ _ _⟩

theorem mem_dedupAcc {v : Word} :
    ∀ (seen l : List Word), v ∈ dedupAcc seen l ↔ v ∈ l ∧ v ∉ seen := by
  intro seen l
  induction l generalizing seen with
  | nil => simp [dedupAcc]
  | cons w rest ih =>
    by_cases hw : w ∈ seen
    · rw [show dedupAcc seen (w :: rest) = dedupAcc seen rest by simp [dedupAcc, hw], ih]
      constructor
      · rintro ⟨hv, hns⟩
        exact ⟨List.mem_cons_of_mem _ hv, hns⟩
      · rintro ⟨hv, hns⟩
        rcases List.mem_cons.mp hv with heq | htl
        · subst heq; exact absurd hw hns
        · exact ⟨htl, hns⟩
    · rw [show dedupAcc seen (w :: rest) = w :: dedupAcc (w :: seen) rest by
        simp [dedupAcc, hw]]
      constructor
      · intro hv
        rcases List.mem_cons.mp hv with heq | htl
        · subst heq
          exact ⟨List.mem_cons_self _ _, hw⟩
        · obtain ⟨hr, hns⟩ := (ih (w :: seen)).mp htl
          exact ⟨List.mem_cons_of_mem _ hr,
            fun hs => hns (List.mem_cons_of_mem _ hs)⟩
      · rintro ⟨hv, hns⟩
        rcases List.mem_cons.mp hv with heq | htl
        · subst heq; exact List.mem_cons_self _ _
        · by_cases hvw : v = w
          · subst hvw; exact List.mem_cons_self _ _
          · exact List.mem_cons_of_mem _ ((ih (w :: seen)).mpr
              ⟨htl, fun hs => by
                rcases List.mem_cons.mp hs with h1 | h2
                · exact hvw h1
                · exact hns h2⟩)

theorem nodup_dedupAcc : ∀ (seen l : List Word), (dedupAcc seen l).Nodup := by
  intro seen l
  induction l generalizing seen with
  | nil => simp [dedupAcc]
  | cons w rest ih =>
    by_cases hw : w ∈ seen
    · rw [show dedupAcc seen (w :: rest) = dedupAcc seen rest by simp [dedupAcc, hw]]
      exact ih seen
    · rw [show dedupAcc seen (w :: rest) = w :: dedupAcc (w :: seen) rest by
        simp [dedupAcc, hw]]
      refine List.nodup_cons.mpr ⟨?_, ih (w :: seen)⟩
      intro hmem
      exact ((mem_dedupAcc _ _).mp hmem).2 (List.mem_cons_self _ _)

theorem dedupAcc_append (a : List Word) :
    ∀ (seen : List Word) (b : List Word),
      dedupAcc seen (a ++ b) = dedupAcc seen a ++ dedupAcc (seenAfter seen a) b := by
  induction a with
  | nil => intro seen b; simp [dedupAcc, seenAfter]
  | cons w rest ih =>
    intro seen b
    by_cases hw : w ∈ seen
    · simp only [List.cons_append, dedupAcc, if_pos hw, seenAfter]
      exact ih seen b
    · simp only [List.cons_append, dedupAcc, if_neg hw, seenAfter]
      exact congrArg (List.cons w) (ih (w :: seen) b)

theorem subAt_iff {n : Word} : ∀ {h : Word}, subAt n h = true ↔ n <+: h := by
  induction n with
  | nil => intro h; simp [subAt, List.nil_prefix]
  | cons a as ih =>
    intro h
    cases h with
    | nil => simp [subAt, List.prefix_nil]
    | cons b bs =>
      rw [show subAt (a :: as) (b :: bs) = (a == b && subAt as bs) from rfl]
      rw [List.cons_prefix_cons]
      simp [ih]

theorem containsSub_iff {n : Word} : ∀ {h : Word}, containsSub n h = true ↔ n <:+: h := by
  intro h
  induction h with
  | nil =>
    cases n with
    | nil => simp [containsSub, List.infix_nil]
    | cons a as => simp [containsSub, List.infix_nil, List.isEmpty]
  | cons b bs ih =>
    rw [show containsSub n (b :: bs) = (subAt n (b :: bs) || containsSub n bs) from rfl]
    rw [List.infix_cons_iff]
    simp [subAt_iff, ih]

theorem containsSub_self (n : Word) : containsSub n n = true :=
  containsSub_iff.mpr (List.infix_refl n)

theorem mem_allSuggestions_of_mem_words {t : Trie} {p w : Word}
    (hw : w ∈ t.words) (hsub : containsSub (lowerWord p) (lowerWord w) = true) :
    w ∈ allSuggestions t p := by
  unfold allSuggestions dedupKeepFirst
  exact (mem_dedupAcc _ _).mpr
    ⟨List.mem_append.mpr (Or.inr (List.mem_filter.mpr ⟨hw, hsub⟩)), by simp⟩

theorem mem_get_suggestions_of_le {t : Trie} {p w : Word} {limit : Nat}
    (hmem : w ∈ allSuggestions t p)
    (hlim : (allSuggestions t p).length ≤ limit) :
    w ∈ t.get_suggestions p limit := by
  unfold Trie.get_suggestions
  rw [List.take_of_length_le hlim]
  exact hmem

theorem mem_allSuggestions_sub {t : Trie} {p v : Word}
    (hv : v ∈ allSuggestions t p) : v ∈ t.search p ∨ v ∈ t.words := by
  unfold allSuggestions dedupKeepFirst at hv
  rcases List.mem_append.mp ((mem_dedupAcc _ _).mp hv).1 with hs | hf
  · exact Or.inl hs
  · exact Or.inr (List.mem_filter.mp hf).1

theorem mem_get_suggestions_sub {t : Trie} {p v : Word} {limit : Nat}
    (hv : v ∈ t.get_suggestions p limit) : v ∈ allSuggestions t p :=
  List.take_subset _ _ hv

theorem mem_get_suggestions_fromWords {ws : List Word} {p v : Word} {limit : Nat}
    (hv : v ∈ (fromWords ws).get_suggestions p limit) : v ∈ ws := by
  rcases mem_allSuggestions_sub (mem_get_suggestions_sub hv) with hs | hw
  · exact findWords_fromWords_sub (mem_search_sub hs)
  · rw [fromWords_words] at hw
    exact hw

theorem get_suggestions_lower_congr (t : Trie) {q1 q2 : Word} (limit : Nat)
    (h : lowerWord q1 = lowerWord q2) :
    t.get_suggestions q1 limit = t.get_suggestions q2 limit := by
  unfold Trie.get_suggestions allSuggestions Trie.search
  rw [h]

theorem containsSub_nil_left (h : Word) : containsSub [] h = true := by
  cases h with
  | nil => rfl
  | cons b bs => rfl

theorem allSuggestions_split (t : Trie) (p : Word) (limit : Nat) :
    t.get_suggestions p limit =
      (dedupKeepFirst (t.search p)).take limit ++
        (dedupAcc (seenAfter [] (t.search p))
          (t.words.filter (fun w => containsSub (lowerWord p) (lowerWord w)))).take
          (limit - (dedupKeepFirst (t.search p)).length) := by
  unfold Trie.get_suggestions allSuggestions dedupKeepFirst
  rw [dedupAcc_append, List.take_append_eq_append_take]

/-- Claim C1: `get_suggestions` is composed in a fixed order — the prefix
matches from `search` come first, followed by the substring matches, the
concatenation is deduplicated keeping each group's internal order, and the
result is truncated to `limit`; on twenty distinct names beginning with 'A',
querying `get_suggestions("a", 7)` yields exactly 7 results, all drawn from
the prefix matches. -/
theorem claim_c1 :
    (∀ (t : Trie) (p : Word) (limit : Nat),
      t.get_suggestions p limit =
        (dedupKeepFirst (t.search p ++
          t.words.filter (fun w => containsSub (lowerWord p) (lowerWord w)))).take limit) ∧
    (∀ (t : Trie) (p : Word) (limit : Nat),
      ∃ b : List Word,
        t.get_suggestions p limit = (dedupKeepFirst (t.search p)).take limit ++ b ∧
          ∀ v ∈ b, v ∈ t.words ∧ containsSub (lowerWord p) (lowerWord v) = true) ∧
    ((fromWords twentyNames).get_suggestions ['a'] 7).length = 7 ∧
    (fromWords twentyNames).get_suggestions ['a'] 7 =
      (dedupKeepFirst ((fromWords twentyNames).search ['a'])).take 7 := by
  refine ⟨fun t p limit => rfl, ?_, by decide, by decide⟩
  intro t p limit
  refine ⟨(dedupAcc (seenAfter [] (t.search p))
      (t.words.filter (fun w => containsSub (lowerWord p) (lowerWord w)))).take
      (limit - (dedupKeepFirst (t.search p)).length),
    allSuggestions_split t p limit, ?_⟩
  intro v hv
  have hv' := (mem_dedupAcc _ _).mp (List.take_subset _ _ hv)
  exact ⟨(List.mem_filter.mp hv'.1).1, (List.mem_filter.mp hv'.1).2⟩

/-- Claim C2: matching is case-insensitive but output is case-preserving —
queries with the same lowercase form give identical results, every returned
string is one of the inserted originals (never a lowercased variant), an
inserted string matched by the query survives when `limit` is large enough,
and inserting Walmart then querying wal or WAL returns exactly Walmart. -/
theorem claim_c2 :
    (∀ (t : Trie) (q1 q2 : Word) (limit : Nat), lowerWord q1 = lowerWord q2 →
      t.get_suggestions q1 limit = t.get_suggestions q2 limit) ∧
    (∀ (ws : List Word) (q v : Word) (limit : Nat),
      v ∈ (fromWords ws).get_suggestions q limit → v ∈ ws) ∧
    (∀ (ws : List Word) (q w : Word) (limit : Nat), w ∈ ws →
      containsSub (lowerWord q) (lowerWord w) = true →
      (allSuggestions (fromWords ws) q).length ≤ limit →
      w ∈ (fromWords ws).get_suggestions q limit) ∧
    (fromWords [wWalmart]).get_suggestions qWalLower 7 = [wWalmart] ∧
    (fromWords [wWalmart]).get_suggestions qWalUpper 7 = [wWalmart] := by
  refine ⟨fun t q1 q2 limit h => get_suggestions_lower_congr t limit h,
    fun ws q v limit hv => mem_get_suggestions_fromWords hv,
    fun ws q w limit hw hsub hlim => mem_get_suggestions_of_le
      (mem_allSuggestions_of_mem_words (by rw [fromWords_words]; exact hw) hsub) hlim,
    by decide, by decide⟩

theorem claim_c2_witness :
    (fromWords [wWalmart]).get_suggestions qWalUpper 7 =
      (fromWords [wWalmart]).get_suggestions qWalLower 7 ∧
    wWalmart ∈ [wWalmart] ∧
    wWalmart ∈ (fromWords [wWalmart]).get_suggestions qWalLower 7 :=
  ⟨claim_c2.1 (fromWords [wWalmart]) qWalUpper qWalLower 7 (by decide),
   claim_c2.2.1 [wWalmart] qWalLower wWalmart 7
     (claim_c2.2.2.1 [wWalmart] qWalLower wWalmart 7 (by decide) (by decide) (by decide)),
   claim_c2.2.2.1 [wWalmart] qWalLower wWalmart 7 (by decide) (by decide) (by decide)⟩

/-- Claim C3: `get_suggestions` never returns the same exact string twice —
its output is duplicate-free, and inserting Costco twice with identical
casing yields Costco exactly once when querying cost. -/
theorem claim_c3 :
    (∀ (t : Trie) (p : Word) (limit : Nat), (t.get_suggestions p limit).Nodup) ∧
    List.count wCostco ((fromWords [wCostco, wCostco]).get_suggestions qCost 7) = 1 := by
  refine ⟨?_, by decide⟩
  intro t p limit
  unfold Trie.get_suggestions allSuggestions dedupKeepFirst
  exact List.Nodup.sublist (List.take_sublist _ _) (nodup_dedupAcc _ _)

/-- Claim C4: substring completeness — if the lowercased query occurs
anywhere inside the lowercased form of an inserted string, that string is in
the output whenever `limit` is at least the number of surviving deduplicated
matches; Home Depot is returned for the query depot. -/
theorem claim_c4 :
    (∀ (ws : List Word) (p w : Word) (limit : Nat), w ∈ ws →
      lowerWord p <:+: lowerWord w →
      (allSuggestions (fromWords ws) p).length ≤ limit →
      w ∈ (fromWords ws).get_suggestions p limit) ∧
    (fromWords [wHomeDepot]).get_suggestions qDepot 7 = [wHomeDepot] := by
  refine ⟨?_, by decide⟩
  intro ws p w limit hw hsub hlim
  exact mem_get_suggestions_of_le
    (mem_allSuggestions_of_mem_words (by rw [fromWords_words]; exact hw)
      (containsSub_iff.mpr hsub)) hlim

theorem claim_c4_witness :
    wHomeDepot ∈ (fromWords [wHomeDepot]).get_suggestions qDepot 7 :=
  claim_c4.1 [wHomeDepot] qDepot wHomeDepot 7 (by decide)
    (containsSub_iff.mp (by decide)) (by decide)

/-- Claim C5: round-trip identity — any inserted string `s` is among the
results of `get_suggestions(s)` provided `limit` is at least the number of
matches, so `s` is not crowded out before truncation. -/
theorem claim_c5 :
    ∀ (ws : List Word) (s : Word) (limit : Nat), s ∈ ws →
      (allSuggestions (fromWords ws) s).length ≤ limit →
      s ∈ (fromWords ws).get_suggestions s limit := by
  intro ws s limit hs hlim
  exact mem_get_suggestions_of_le
    (mem_allSuggestions_of_mem_words (by rw [fromWords_words]; exact hs)
      (containsSub_self (lowerWord s))) hlim

theorem claim_c5_witness :
    wCostco ∈ (fromWords [wCostco]).get_suggestions wCostco 7 :=
  claim_c5 [wCostco] wCostco 7 (by decide) (by decide)

/-- Claim C6: prefix-miss behavior — when some character of the lowercased
query has no child during the walk, `search` returns the empty sequence, and
`get_suggestions` on the same query still succeeds, returning only the
(deduplicated, truncated) substring matches. -/
theorem claim_c6 :
    ∀ (t : Trie) (p : Word) (limit : Nat),
      walkNode t.root (lowerWord p) = none →
      t.search p = [] ∧
      t.get_suggestions p limit =
        (dedupKeepFirst (t.words.filter
          (fun w => containsSub (lowerWord p) (lowerWord w)))).take limit := by
  intro t p limit h
  have hs : t.search p = [] := by unfold Trie.search; rw [h]
  refine ⟨hs, ?_⟩
  unfold Trie.get_suggestions allSuggestions
  rw [hs, List.nil_append]

theorem claim_c6_witness :
    (fromWords [wApple]).search qZzz = [] ∧
    (fromWords [wApple]).get_suggestions qZzz 7 =
      (dedupKeepFirst ((fromWords [wApple]).words.filter
        (fun w => containsSub (lowerWord qZzz) (lowerWord w)))).take 7 :=
  claim_c6 (fromWords [wApple]) qZzz 7 rfl

/-- Claim C7: empty-prefix behavior — on an empty index the empty query
returns the empty sequence; on any index the output has at most `limit`
entries; `search ""` is the zero-length walk from the root, so it enumerates
every inserted terminal (each inserted word is represented by a
lowercase-equal surviving original), and a populated index with a positive
`limit` yields a nonempty result. -/
theorem claim_c7 :
    (∀ limit : Nat, Trie.empty.get_suggestions [] limit = []) ∧
    (∀ (t : Trie) (limit : Nat), (t.get_suggestions [] limit).length ≤ limit) ∧
    (∀ t : Trie, t.search [] = findWordsFromNode t.root) ∧
    (∀ (ws : List Word) (w : Word), w ∈ ws →
      ∃ v, lowerWord v = lowerWord w ∧ v ∈ (fromWords ws).search []) ∧
    (∀ (ws : List Word) (limit : Nat), ws ≠ [] → 1 ≤ limit →
      (fromWords ws).get_suggestions [] limit ≠ []) := by
  refine ⟨?_, ?_, ?_, ?_, ?_⟩
  · intro limit
    unfold Trie.get_suggestions
    rw [show allSuggestions Trie.empty [] = [] from rfl]
    exact List.take_nil
  · intro t limit
    exact List.length_take_le _ _
  · intro t
    rfl
  · intro ws w hw
    obtain ⟨v, hvl, hvmem⟩ := findWords_fromWords_complete hw
    exact ⟨v, hvl, by rw [show (fromWords ws).search [] =
      findWordsFromNode (fromWords ws).root from rfl]; exact hvmem⟩
  · intro ws limit hne hlim
    obtain ⟨w, hw⟩ := List.exists_mem_of_ne_nil ws hne
    have hmem : w ∈ allSuggestions (fromWords ws) [] :=
      mem_allSuggestions_of_mem_words (by rw [fromWords_words]; exact hw)
        (containsSub_nil_left (lowerWord w))
    have hlen : 0 < (allSuggestions (fromWords ws) []).length :=
      List.length_pos.mpr (List.ne_nil_of_mem hmem)
    unfold Trie.get_suggestions
    refine List.length_pos.mp ?_
    rw [List.length_take]
    exact Nat.lt_min.mpr ⟨hlim, hlen⟩

theorem claim_c7_witness :
    (∃ v, lowerWord v = lowerWord wApple ∧ v ∈ (fromWords [wApple]).search []) ∧
    (fromWords [wApple]).get_suggestions [] 7 ≠ [] :=
  ⟨claim_c7.2.2.2.1 [wApple] wApple (by decide),
   claim_c7.2.2.2.2 [wApple] 7 (by decide) (by decide)⟩

/-- Claim C8: the reachable-state invariant — the flat `words` list is
exactly the sequence of insert arguments in order (duplicates retained), and
the terminal at each normalized path stores the original text of the most
recent insert whose lowercase form equals that path; inserting Costco then
COSTCO keeps both casings in the flat list, the trie terminal remembers only
COSTCO, and both casings survive in the suggestions as distinct entries. -/
theorem claim_c8 :
    (∀ ws : List Word, (fromWords ws).words = ws) ∧
    (∀ (ws : List Word) (l : List Char),
      termWordAt (fromWords ws).root l =
        (ws.filter (fun u => lowerWord u = l)).getLast?) ∧
    (fromWords [wCostco, wCostcoUpper]).words = [wCostco, wCostcoUpper] ∧
    termWordAt (fromWords [wCostco, wCostcoUpper]).root (lowerWord wCostco) =
      some wCostcoUpper ∧
    (fromWords [wCostco, wCostcoUpper]).get_suggestions qCost 7 =
      [wCostcoUpper, wCostco] :=
  ⟨fromWords_words, termWordAt_fromWords, by decide, by decide, by decide⟩

/-- Claim C9: queries are read-only — the state-passing forms of `search`
and `get_suggestions` return the index unchanged while producing the same
results as the pure functions, and a single `insert` appends exactly one
element to the flat words list. -/
theorem claim_c9 :
    ∀ (t : Trie) (p w : Word) (limit : Nat),
      (t.searchST p).2 = t ∧ (t.searchST p).1 = t.search p ∧
      (t.getSuggestionsST p limit).2 = t ∧
      (t.getSuggestionsST p limit).1 = t.get_suggestions p limit ∧
      (t.insert w).words = t.words ++ [w] ∧
      (t.insert w).words.length = t.words.length + 1 :=
  fun t p w limit => ⟨rfl, rfl, rfl, rfl, rfl, by simp [Trie.insert]⟩

/-- Claim C10: no foreign strings in the output — every string returned by
`search` or `get_suggestions` on a reachable index is character-for-character
one of the earlier insert arguments; lowercased internal forms never leak. -/
theorem claim_c10 :
    ∀ (ws : List Word) (p v : Word) (limit : Nat),
      (v ∈ (fromWords ws).search p → v ∈ ws) ∧
      (v ∈ (fromWords ws).get_suggestions p limit → v ∈ ws) := by
  intro ws p v limit
  exact ⟨fun hv => findWords_fromWords_sub (mem_search_sub hv),
    fun hv => mem_get_suggestions_fromWords hv⟩

theorem claim_c10_witness :
    wWalmart ∈ [wWalmart] ∧ wHomeDepot ∈ [wHomeDepot] :=
  ⟨(claim_c10 [wWalmart] qWalLower wWalmart 7).1 (by decide),
   (claim_c10 [wHomeDepot] qDepot wHomeDepot 7).2 (by decide)⟩

end Bill
